import Mathlib

/-!
Verification development for `pcap.py` (bitnodes): reconstruction of p2p
messages from captured TCP segments and caching of inv/pong observations
in a key-value store.

Shallow embedding notes.
* `Stream.segments` in the source is a `Queue.PriorityQueue` holding tuples
  `(tcp_pkt.seq, (timestamp, tcp_pkt))`.  Draining a binary heap whose
  entries are linearly ordered produces exactly the ascending order of the
  entries, so the drain is embedded as a sort by the tuple order.  Python 2
  compares these tuples lexicographically: first `seq`, then `timestamp`,
  and finally the `tcp_pkt` objects themselves, which fall back to an
  identity-based comparison.  The identity comparison is modelled here by a
  stable sort (entries with equal `(seq, timestamp)` keep insertion order);
  the real tie order for fully equal keys is arbitrary, which is exactly
  what one of the claims below turns on.
* Timestamps are milliseconds as produced by `int(timestamp * 1000)`;
  they are embedded as `Int`, and the Python 2 floor division `/` on ints
  is embedded as `Int.fdiv`.
* Redis state is embedded as `Store` (association lists); commands staged
  on `redis_pipe` are a `Cmd` list applied by `applyCmds` at the explicit
  `execute()` points.  `REDIS_CONN.get`/`REDIS_CONN.set` calls in the
  source act on the store immediately, not through the pipeline, and are
  embedded as direct `Store` reads/writes.
-/

/-- One captured TCP segment of a flow: sequence number, capture timestamp
in milliseconds, payload bytes. -/
structure Segment where
  seq : Nat
  ts : Int
  payload : List Nat
deriving DecidableEq, Repr

/-- Order in which the per-flow priority queue in `Stream.segments` releases
its entries: Python compares the queued tuples `(seq, (timestamp, pkt))`
lexicographically, so `seq` first and `timestamp` second. -/
def segLE (a b : Segment) : Prop :=
  a.seq < b.seq ∨ (a.seq = b.seq ∧ a.ts ≤ b.ts)

instance decSegLE : DecidableRel segLE := fun a b =>
  inferInstanceAs (Decidable (a.seq < b.seq ∨ (a.seq = b.seq ∧ a.ts ≤ b.ts)))

instance : IsTotal Segment segLE where
  total a b := by
    rcases Nat.lt_trichotomy a.seq b.seq with h | h | h
    · exact Or.inl (Or.inl h)
    · rcases Int.le_total a.ts b.ts with h' | h'
      · exact Or.inl (Or.inr ⟨h, h'⟩)
      · exact Or.inr (Or.inr ⟨h.symm, h'⟩)
    · exact Or.inr (Or.inl h)

instance : IsTrans Segment segLE where
  trans a b c hab hbc := by
    rcases hab with h1 | ⟨h1, h1'⟩ <;> rcases hbc with h2 | ⟨h2, h2'⟩
    · exact Or.inl (Nat.lt_trans h1 h2)
    · exact Or.inl (h2 ▸ h1)
    · exact Or.inl (h1 ▸ h2)
    · exact Or.inr ⟨h1.trans h2, h1'.trans h2'⟩

/-- Drain order of the per-flow `PriorityQueue`: ascending in the queued
tuple order (see module notes; ties in `(seq, ts)` keep insertion order,
standing in for CPython's identity comparison). -/
def drainQueue (segs : List Segment) : List Segment :=
  List.insertionSort segLE segs

/-- The body of `Stream.data`: pop segments in queue order, skip any
segment whose sequence number is already in `seqs`, and deliver the rest.
The delivered segments carry both the yielded payload (`tcp_pkt.data`)
and the side-channel timestamp (`self.timestamp`). -/
def dedupSegs : List Segment → List Nat → List Segment
  | [], _ => []
  | s :: rest, seqs =>
    if s.seq ∈ seqs then dedupSegs rest seqs
    else s :: dedupSegs rest (s.seq :: seqs)

/-- Segments delivered by `Stream.data` for a flow whose queue received
`segs` in the given insertion order. -/
def streamSegs (segs : List Segment) : List Segment :=
  dedupSegs (drainQueue segs) []

/-- Byte chunks yielded by `Stream.data` (the values of `tcp_pkt.data`). -/
def streamChunks (segs : List Segment) : List (List Nat) :=
  (streamSegs segs).map Segment.payload

/-- Chunks paired with the `Stream.timestamp` side channel observed at
each yield. -/
def streamOut (segs : List Segment) : List (Int × List Nat) :=
  (streamSegs segs).map fun s => (s.ts, s.payload)

/-! ## Association-list store primitives -/

/-- Lookup in an association list (embedding of a Redis key read). -/
def alookup {κ ν : Type} [DecidableEq κ] : List (κ × ν) → κ → Option ν
  | [], _ => none
  | (k', v) :: rest, k => if k = k' then some v else alookup rest k

/-- Insert-or-update in an association list (embedding of a Redis key
write). -/
def aset {κ ν : Type} [DecidableEq κ] : List (κ × ν) → κ → ν → List (κ × ν)
  | [], k, v => [(k, v)]
  | (k', v') :: rest, k, v =>
    if k = k' then (k, v) :: rest else (k', v') :: aset rest k v

/-! ## The key-value store and the staged command pipeline -/

/-- A peer node, `(stream_id[0], stream_id[1])` in the source: the source
address and source port of the flow a message arrived on. -/
abbrev Node : Type := Nat × Nat

/-- Key of an inv observation: the `(inv type, inv hash)` pair formatted
into the string key `inv:TYPE:HASH` by the source. -/
abbrev InvKey : Type := Nat × Nat

/-- Key of a ping/pong pairing: the node plus the message nonce, formatted
into `ping:ADDRESS-PORT:NONCE` by the source. -/
abbrev PingKey : Type := Node × Nat

/-- The Redis state touched by `pcap.py`.  Each field embeds one family of
keys: `firstSeen` the `rinv:2:HASH` first-seen scalars, `lastblockhash`
that single scalar key, `scores` the `inv:TYPE:HASH` sorted sets
(member `node`, score `timestamp`), `invExpiry` their TTLs, `pings` the
`ping:ADDRESS-PORT:NONCE` lists, `rtts` the `rtt:ADDRESS-PORT` lists, and
`rttExpiry` their TTLs. -/
structure Store where
  firstSeen : List (InvKey × Int)
  lastblockhash : Option Nat
  scores : List (InvKey × List (Node × Int))
  invExpiry : List (InvKey × Int)
  pings : List (PingKey × List Int)
  rtts : List (Node × List Int)
  rttExpiry : List (Node × Int)
deriving DecidableEq, Repr

/-- The empty store. -/
def Store.empty : Store := ⟨[], none, [], [], [], [], []⟩

/-- One staged pipeline command (`self.redis_pipe.*` calls). -/
inductive Cmd where
  | setLastblock (h : Nat)
  | zadd (key : InvKey) (ts : Int) (node : Node)
  | expireInv (key : InvKey) (t : Int)
  | rpushx (key : PingKey) (ts : Int)
  | lpushRtt (key : Node) (v : Int)
  | ltrimRtt (key : Node) (stop : Int)
  | expireRtt (key : Node) (t : Int)
deriving DecidableEq, Repr

/-- Redis `LTRIM key 0 stop` on a list: a negative `stop` counts from the
end of the list (`stop = -1` keeps the whole list). -/
def redisTrim (stop : Int) (l : List Int) : List Int :=
  if 0 ≤ stop then l.take (stop + 1).toNat
  else l.take ((l.length : Int) + stop + 1).toNat

/-- Effect of one staged command on the store.  `rpushx` appends only when
the key already exists; `lpushRtt` creates the key if missing; `ltrimRtt`
on a missing key does nothing. -/
def applyCmd (st : Store) : Cmd → Store
  | .setLastblock h => { st with lastblockhash := some h }
  | .zadd k ts n =>
    let members := (alookup st.scores k).getD []
    { st with scores := aset st.scores k (aset members n ts) }
  | .expireInv k t => { st with invExpiry := aset st.invExpiry k t }
  | .rpushx k ts =>
    match alookup st.pings k with
    | none => st
    | some l => { st with pings := aset st.pings k (l ++ [ts]) }
  | .lpushRtt k v =>
    { st with rtts := aset st.rtts k (v :: (alookup st.rtts k).getD []) }
  | .ltrimRtt k stop =>
    match alookup st.rtts k with
    | none => st
    | some l => { st with rtts := aset st.rtts k (redisTrim stop l) }
  | .expireRtt k t => { st with rttExpiry := aset st.rttExpiry k t }

/-- `redis_pipe.execute()`: apply the staged commands in order. -/
def applyCmds (st : Store) (cs : List Cmd) : Store := cs.foldl applyCmd st

/-! ## Decoded messages and the observation cache -/

/-- A decoded protocol message as consumed by `cache_message`: an `inv`
carries its inventory of `(type, hash)` entries plus the message-level
`count` field, a `pong` carries its nonce, and every other command is
ignored by the cache. -/
inductive Msg where
  | inv (inventory : List (Nat × Nat)) (count : Nat)
  | pong (nonce : Nat)
  | other
deriving DecidableEq, Repr

/-- The mutable state of a `Cache` object while one file is processed:
the live store (reached by the immediate `REDIS_CONN` calls), the staged
pipeline, the remembered ping keys (`self.keys`), and the message counter
(`self.count`). -/
structure CacheSt where
  store : Store
  pipe : List Cmd
  keys : List PingKey
  count : Nat
deriving DecidableEq, Repr

/-- The body of the `for inv in msg['inventory']` loop in `cache_message`
(source lines 152-166).  For a block-type entry (`type = 2`) the
first-seen scalar is read, and written immediately, through `REDIS_CONN`;
the entry is skipped entirely when the stored first-seen is too old,
where "too old" is the Python 2 floor division
`(timestamp - first_seen) / 1000 > ttl`.  Otherwise the per-peer score
and the key expiry are staged on the pipeline. -/
def cacheInvEntry (ttl : Int) (node : Node) (ts : Int) (c : CacheSt)
    (entry : Nat × Nat) : CacheSt :=
  if entry.1 = 2 then
    match alookup c.store.firstSeen entry with
    | none =>
      let st := { c.store with firstSeen := aset c.store.firstSeen entry ts }
      { c with store := st,
               pipe := c.pipe ++ [Cmd.setLastblock entry.2,
                                  Cmd.zadd entry ts node,
                                  Cmd.expireInv entry ttl] }
    | some ms =>
      if Int.fdiv (ts - ms) 1000 > ttl then c
      else
        { c with pipe := c.pipe ++ [Cmd.zadd entry ts node,
                                    Cmd.expireInv entry ttl] }
  else
    { c with pipe := c.pipe ++ [Cmd.zadd entry ts node,
                                Cmd.expireInv entry ttl] }

/-- `Cache.cache_message` (source lines 147-172): dispatch on the message
command.  An `inv` runs the entry loop and adds `msg['count']` to the
counter; a `pong` stages an append-if-exists of the timestamp on the
`ping:ADDRESS-PORT:NONCE` key and remembers that key in `self.keys`. -/
def cacheMessage (ttl : Int) (node : Node) (ts : Int) (c : CacheSt) :
    Msg → CacheSt
  | .inv inventory cnt =>
    let c' := inventory.foldl (cacheInvEntry ttl node ts) c
    { c' with count := c'.count + cnt }
  | .pong nonce =>
    let key : PingKey := (node, nonce)
    { c with pipe := c.pipe ++ [Cmd.rpushx key ts],
             keys := if key ∈ c.keys then c.keys else c.keys ++ [key],
             count := c.count + 1 }
  | .other => c

/-- The per-key body of the `Cache.cache_rtt` loop (source lines
178-186): read the first two timestamps of the ping key; when two are
present, stage pushing `pong - ping` onto the front of the peer's
`rtt:ADDRESS-PORT` list, trimming that list with
`LTRIM 0 (rtt_count - 1)`, and refreshing its expiry. -/
def rttPerKey (st : Store) (rttCount ttl : Int) (k : PingKey) : List Cmd :=
  let timestamps := ((alookup st.pings k).getD []).take 2
  match timestamps with
  | [a, b] => [Cmd.lpushRtt k.1 (b - a),
               Cmd.ltrimRtt k.1 (rttCount - 1),
               Cmd.expireRtt k.1 ttl]
  | _ => []

/-- `Cache.cache_rtt`: stage the RTT commands for every remembered ping
key (all reads see the store as left by the message-pass flush) and
execute them as one batch. -/
def cacheRtt (st : Store) (keys : List PingKey) (rttCount ttl : Int) :
    Store :=
  applyCmds st (keys.foldl (fun acc k => acc ++ rttPerKey st rttCount ttl k) [])

/-! ## The message framer -/

/-- Outcome of one `serializer.deserialize_msg` call on a buffer: a
message plus the leftover bytes, a too-short error (`HeaderTooShortError`
or `PayloadTooShortError`), or any other `ProtocolError` (a malformed
frame). -/
inductive DecodeResult where
  | ok (msg : Msg) (rest : List Nat)
  | tooShort
  | malformed
deriving DecidableEq, Repr

/-- The external protocol decoder.  A successful parse consumes at least
the frame header, so the leftover is strictly shorter than the input;
this fact is what keeps the framing loop of `cache_messages` from
spinning forever on one buffer. -/
structure Decoder where
  decode : List Nat → DecodeResult
  consumes : ∀ buf msg rest, decode buf = .ok msg rest →
    rest.length < buf.length

/-- Combined size of a framer state.  Every iteration of the framing loop
of a consuming decoder strictly decreases it, so it bounds the number of
iterations. -/
def frameMeasure (buf : List Nat) (chunks : List (Int × List Nat)) : Nat :=
  buf.length + (chunks.map fun c => c.2.length).sum + chunks.length

/-- Fuelled form of the `while True` framing loop of
`Cache.cache_messages` (source lines 99-116).  `buf` is `_data`, `curTs`
is `self.stream.timestamp` as last observed at a yield, and `chunks` are
the `(timestamp, payload)` pairs still to be produced by `Stream.data`.
On success the message is recorded with the current timestamp and
decoding retries on the leftover alone; on a too-short error the next
chunk is appended to the buffer; on a malformed frame the buffer is
replaced wholesale by the next chunk; either error ends the stream when
no chunk remains.  The fuel is a technical device: with fuel above
`frameMeasure` it is never exhausted (`frameLoopF_congr`). -/
def frameLoopF (dec : List Nat → DecodeResult) :
    Nat → List Nat → Int → List (Int × List Nat) → List (Int × Msg)
  | 0, _, _, _ => []
  | fuel + 1, buf, curTs, chunks =>
    match dec buf with
    | .ok msg rest => (curTs, msg) :: frameLoopF dec fuel rest curTs chunks
    | .tooShort =>
      match chunks with
      | [] => []
      | (ts, c) :: cs => frameLoopF dec fuel (buf ++ c) ts cs
    | .malformed =>
      match chunks with
      | [] => []
      | (ts, c) :: cs => frameLoopF dec fuel c ts cs

/-- The framing loop of `Cache.cache_messages`, run to completion. -/
def frameLoop (d : Decoder) (buf : List Nat) (curTs : Int)
    (chunks : List (Int × List Nat)) : List (Int × Msg) :=
  frameLoopF d.decode (frameMeasure buf chunks + 1) buf curTs chunks


/-! ## Stream extraction and the per-file pipeline -/

/-- Identity of one direction of a TCP flow:
`(src address, src port, dst address, dst port)`.  Addresses are embedded
as numbers (the source formats them as strings with `inet_ntop`, which is
injective per address family). -/
structure FlowId where
  srcAddr : Nat
  srcPort : Nat
  dstAddr : Nat
  dstPort : Nat
deriving DecidableEq, Repr

/-- One captured frame after the dpkt link/IP/TCP decode step: whether it
carried TCP, the flow coordinates, the TCP sequence number, the capture
timestamp already converted to integer milliseconds, and the TCP payload
bytes. -/
structure Packet where
  isTcp : Bool
  src : Nat
  sport : Nat
  dst : Nat
  dport : Nat
  seq : Nat
  tsMs : Int
  payload : List Nat
deriving DecidableEq, Repr

/-- `Cache.extract_streams` (source lines 120-145): one linear pass over
the captured frames; a TCP segment with non-empty payload is appended to
its flow's queue (the per-flow insertion lists here; the queue order is
realized later by `drainQueue`).  Flows never receive an empty-payload
segment and a flow entry is only created by such an insertion. -/
def extractStep (m : List (FlowId × List Segment)) (p : Packet) :
    List (FlowId × List Segment) :=
  if p.isTcp then
    if p.payload.length > 0 then
      let fid : FlowId := ⟨p.src, p.sport, p.dst, p.dport⟩
      aset m fid ((alookup m fid).getD [] ++ [⟨p.seq, p.tsMs, p.payload⟩])
    else m
  else m

/-- The flow map built by one pass of `extract_streams` over the file. -/
def extractStreams (pkts : List Packet) : List (FlowId × List Segment) :=
  pkts.foldl extractStep []

/-- Framing of one stream's chunk sequence, starting with the
unconditional `_data = data.next()` of source line 98.  An empty chunk
sequence makes that first call raise `StopIteration` outside any handler,
which the source does not catch: that is the `none` case. -/
def streamMessages? (d : Decoder) (segs : List Segment) :
    Option (List (Int × Msg)) :=
  match streamOut segs with
  | [] => none
  | (ts, c) :: rest => some (frameLoop d c ts rest)

/-- Fold of `cache_message` over the framed messages of one stream. -/
def cacheStreamMsgs (ttl : Int) (node : Node) (c : CacheSt)
    (msgs : List (Int × Msg)) : CacheSt :=
  msgs.foldl (fun c tm => cacheMessage ttl node tm.1 c tm.2) c

/-- The message pass of `Cache.cache_messages` (source lines 96-116):
every stream is framed and its messages cached, staging pipeline
commands; no `execute()` happens here. -/
def messagePass (d : Decoder) (ttl : Int) (c : CacheSt)
    (streams : List (FlowId × List Segment)) : CacheSt :=
  streams.foldl
    (fun c s =>
      cacheStreamMsgs ttl (s.1.srcAddr, s.1.srcPort) c
        ((streamMessages? d s.2).getD []))
    c

/-- `Cache.cache_messages` end to end: run the message pass over the
extracted streams, flush the staged batch once, then run `cache_rtt`
(which flushes its own batch). -/
def cacheMessages (d : Decoder) (ttl rttCount : Int) (st : Store)
    (streams : List (FlowId × List Segment)) : Store :=
  let c := messagePass d ttl ⟨st, [], [], 0⟩ streams
  let st1 := applyCmds c.store c.pipe
  cacheRtt st1 c.keys rttCount ttl

/-! ## A small concrete decoder for witnesses -/

/-- Message denoted by a demo frame's body byte. -/
def msgOfByte (x : Nat) : Msg :=
  if x = 0 then .pong 7 else .inv [(2, x)] 1

/-- A tiny concrete decoder used in witnesses: a valid frame is the byte
`1` followed by one body byte; a lone `1` or an empty buffer is too
short; any other first byte is malformed. -/
def demoDecode (buf : List Nat) : DecodeResult :=
  match buf with
  | [] => .tooShort
  | t :: rest =>
    if t = 1 then
      match rest with
      | [] => .tooShort
      | x :: rest' => .ok (msgOfByte x) rest'
    else .malformed

/-- The demo decoder packaged with its consumption bound. -/
def demoDecoder : Decoder where
  decode := demoDecode
  consumes := by
    intro buf msg rest h
    match buf with
    | [] => simp [demoDecode] at h
    | t :: tl =>
      by_cases ht : t = 1
      · subst ht
        match tl with
        | [] => simp [demoDecode] at h
        | x :: tl' =>
          simp [demoDecode] at h
          simp only [← h.2, List.length_cons]
          omega
      · simp [demoDecode, ht] at h

/-! ## Views and concrete inputs used by the theorems below -/

/-- The store components that the message pass never writes directly:
everything except the block first-seen scalars, which `cache_message`
writes through `REDIS_CONN.set` immediately. -/
def stagedView (st : Store) :
    Option Nat × List (InvKey × List (Node × Int)) × List (InvKey × Int) ×
      List (PingKey × List Int) × List (Node × List Int) ×
      List (Node × Int) :=
  (st.lastblockhash, st.scores, st.invExpiry, st.pings, st.rtts, st.rttExpiry)

/-- Two-segment flow, distinct sequence numbers, inserted out of order. -/
def c1A : List Segment := [⟨104, 9, [67]⟩, ⟨100, 5, [65]⟩]

/-- The same two segments as `c1A`, inserted in the other order. -/
def c1B : List Segment := [⟨100, 5, [65]⟩, ⟨104, 9, [67]⟩]

/-- The reassembly example of the spec: sequence numbers 100 and 104
carrying the bytes of `AB` and `CD`, inserted out of order. -/
def c2Demo : List Segment := [⟨104, 7, [67, 68]⟩, ⟨100, 5, [65, 66]⟩]

/-- A cache whose store already holds the first-seen scalar
`first-seen(77) = 1000000`. -/
def c3Cache : CacheSt :=
  ⟨{ Store.empty with firstSeen := [((2, 77), 1000000)] }, [], [], 0⟩

/-- A cache whose store already holds the first-seen scalar
`first-seen(88) = 1000000`. -/
def c5Cache : CacheSt :=
  ⟨{ Store.empty with firstSeen := [((2, 88), 1000000)] }, [], [], 0⟩

/-- A fresh cache over an empty store, as built at the start of a file. -/
def demoCache0 : CacheSt := ⟨Store.empty, [], [], 0⟩

/-- One flow holding one segment whose payload frames one block inv. -/
def c4Streams : List (FlowId × List Segment) :=
  [(⟨10, 8333, 20, 8333⟩, [⟨0, 1000, [1, 5]⟩])]

/-- A store holding a completed ping/pong pair `[2000, 2500]` for nonce 9
of peer `(6, 8333)`, and two old RTT samples for that peer. -/
def c8Store : Store :=
  { Store.empty with
      pings := [(((6, 8333), 9), [2000, 2500])],
      rtts := [((6, 8333), [1, 2])] }

/-- One captured TCP packet with a non-empty payload. -/
def c10Pkts : List Packet :=
  [⟨true, 10, 8333, 20, 8333, 0, 1000, [1, 5]⟩]

/-! ## Association-list lemmas -/

theorem alookup_aset_self {κ ν : Type} [DecidableEq κ]
    (m : List (κ × ν)) (k : κ) (v : ν) : alookup (aset m k v) k = some v := by
  induction m with
  | nil => simp [aset, alookup]
  | cons p rest ih =>
    by_cases h : k = p.1
    · simp [aset, alookup, h]
    · simpa [aset, alookup, h] using ih

theorem alookup_aset_ne {κ ν : Type} [DecidableEq κ]
    (m : List (κ × ν)) (k k' : κ) (v : ν) (h : k' ≠ k) :
    alookup (aset m k v) k' = alookup m k' := by
  induction m with
  | nil => simp [aset, alookup, h]
  | cons p rest ih =>
    by_cases hk : k = p.1
    · subst hk
      simp [aset, alookup, h]
    · by_cases hk' : k' = p.1 <;> simp [aset, alookup, hk, hk', ih]

theorem mem_aset {κ ν : Type} [DecidableEq κ]
    (m : List (κ × ν)) (k : κ) (v : ν) (x : κ × ν) :
    x ∈ aset m k v → x = (k, v) ∨ x ∈ m := by
  induction m with
  | nil => simp [aset]
  | cons p rest ih =>
    by_cases h : k = p.1
    · simp only [aset, h, if_pos rfl]
      intro hx
      rcases List.mem_cons.mp hx with h' | h'
      · exact Or.inl (by simpa [h] using h')
      · exact Or.inr (List.mem_cons_of_mem _ h')
    · simp only [aset, if_neg h]
      intro hx
      rcases List.mem_cons.mp hx with h' | h'
      · exact Or.inr (h' ▸ List.mem_cons_self _ _)
      · rcases ih h' with h'' | h''
        · exact Or.inl h''
        · exact Or.inr (List.mem_cons_of_mem _ h'')

theorem alookup_mem {κ ν : Type} [DecidableEq κ]
    (m : List (κ × ν)) (k : κ) (v : ν) :
    alookup m k = some v → (k, v) ∈ m := by
  induction m with
  | nil => simp [alookup]
  | cons p rest ih =>
    obtain ⟨k', v'⟩ := p
    intro hx
    simp only [alookup] at hx
    by_cases h : k = k'
    · subst h
      rw [if_pos rfl] at hx
      injection hx with hv
      subst hv
      exact List.mem_cons_self _ _
    · rw [if_neg h] at hx
      exact List.mem_cons_of_mem _ (ih hx)

/-! ## Framer step lemmas -/

theorem frameLoopF_congr (d : Decoder) :
    ∀ f₁ f₂ buf curTs chunks, frameMeasure buf chunks < f₁ →
      frameMeasure buf chunks < f₂ →
      frameLoopF d.decode f₁ buf curTs chunks =
        frameLoopF d.decode f₂ buf curTs chunks := by
  intro f₁
  induction f₁ with
  | zero => intro f₂ buf curTs chunks h1; omega
  | succ n ih =>
    intro f₂ buf curTs chunks h1 h2
    match f₂, h2 with
    | m + 1, _ =>
      simp only [frameLoopF]
      cases hdec : d.decode buf with
      | ok msg rest =>
        have hlt := d.consumes buf msg rest hdec
        have hm : frameMeasure rest chunks < frameMeasure buf chunks := by
          simp only [frameMeasure]; omega
        exact congrArg _ (ih m rest curTs chunks (by omega) (by omega))
      | tooShort =>
        cases chunks with
        | nil => rfl
        | cons c cs =>
          have hm : frameMeasure (buf ++ c.2) cs <
              frameMeasure buf (c :: cs) := by
            simp only [frameMeasure, List.map_cons, List.sum_cons,
              List.length_cons, List.length_append]
            omega
          exact ih m (buf ++ c.2) c.1 cs (by omega) (by omega)
      | malformed =>
        cases chunks with
        | nil => rfl
        | cons c cs =>
          have hm : frameMeasure c.2 cs < frameMeasure buf (c :: cs) := by
            simp only [frameMeasure, List.map_cons, List.sum_cons,
              List.length_cons]
            omega
          exact ih m c.2 c.1 cs (by omega) (by omega)

theorem frameLoop_ok (d : Decoder) {buf : List Nat} {msg : Msg}
    {rest : List Nat} (curTs : Int) (chunks : List (Int × List Nat))
    (h : d.decode buf = .ok msg rest) :
    frameLoop d buf curTs chunks =
      (curTs, msg) :: frameLoop d rest curTs chunks := by
  have hlt := d.consumes buf msg rest h
  have hm : frameMeasure rest chunks < frameMeasure buf chunks := by
    simp only [frameMeasure]; omega
  have step : frameLoop d buf curTs chunks = (curTs, msg) ::
      frameLoopF d.decode (frameMeasure buf chunks) rest curTs chunks := by
    simp only [frameLoop, frameLoopF, h]
  rw [step, frameLoop]
  exact congrArg _
    (frameLoopF_congr d _ _ rest curTs chunks (by omega) (by omega))

theorem frameLoop_tooShort_nil (d : Decoder) {buf : List Nat} (curTs : Int)
    (h : d.decode buf = .tooShort) : frameLoop d buf curTs [] = [] := by
  simp only [frameLoop, frameLoopF, h]

theorem frameLoop_tooShort_cons (d : Decoder) {buf : List Nat}
    (curTs ts : Int) (c : List Nat) (cs : List (Int × List Nat))
    (h : d.decode buf = .tooShort) :
    frameLoop d buf curTs ((ts, c) :: cs) = frameLoop d (buf ++ c) ts cs := by
  have hm : frameMeasure (buf ++ c) cs < frameMeasure buf ((ts, c) :: cs) := by
    simp only [frameMeasure, List.map_cons, List.sum_cons, List.length_cons,
      List.length_append]
    omega
  have step : frameLoop d buf curTs ((ts, c) :: cs) =
      frameLoopF d.decode (frameMeasure buf ((ts, c) :: cs)) (buf ++ c) ts cs := by
    simp only [frameLoop, frameLoopF, h]
  rw [step, frameLoop]
  exact frameLoopF_congr d _ _ (buf ++ c) ts cs (by omega) (by omega)

theorem frameLoop_malformed_nil (d : Decoder) {buf : List Nat} (curTs : Int)
    (h : d.decode buf = .malformed) : frameLoop d buf curTs [] = [] := by
  simp only [frameLoop, frameLoopF, h]

theorem frameLoop_malformed_cons (d : Decoder) {buf : List Nat}
    (curTs ts : Int) (c : List Nat) (cs : List (Int × List Nat))
    (h : d.decode buf = .malformed) :
    frameLoop d buf curTs ((ts, c) :: cs) = frameLoop d c ts cs := by
  have hm : frameMeasure c cs < frameMeasure buf ((ts, c) :: cs) := by
    simp only [frameMeasure, List.map_cons, List.sum_cons, List.length_cons]
    omega
  have step : frameLoop d buf curTs ((ts, c) :: cs) =
      frameLoopF d.decode (frameMeasure buf ((ts, c) :: cs)) c ts cs := by
    simp only [frameLoop, frameLoopF, h]
  rw [step, frameLoop]
  exact frameLoopF_congr d _ _ c ts cs (by omega) (by omega)

/-! ## Reassembly lemmas -/

theorem drainQueue_perm (l : List Segment) : (drainQueue l).Perm l :=
  List.perm_insertionSort segLE l

theorem drainQueue_sorted (l : List Segment) :
    (drainQueue l).Sorted segLE :=
  List.sorted_insertionSort segLE l

theorem mem_of_mem_dedupSegs {d : List Segment} {seen : List Nat}
    {w : Segment} (h : w ∈ dedupSegs d seen) : w ∈ d := by
  induction d generalizing seen with
  | nil => simp [dedupSegs] at h
  | cons s rest ih =>
    by_cases hs : s.seq ∈ seen
    · simp only [dedupSegs, if_pos hs] at h
      exact List.mem_cons_of_mem _ (ih h)
    · simp only [dedupSegs, if_neg hs] at h
      rcases List.mem_cons.mp h with h' | h'
      · exact h' ▸ List.mem_cons_self _ _
      · exact List.mem_cons_of_mem _ (ih h')

theorem dedupSegs_not_seen {d : List Segment} {seen : List Nat}
    {w : Segment} (h : w ∈ dedupSegs d seen) : w.seq ∉ seen := by
  induction d generalizing seen with
  | nil => simp [dedupSegs] at h
  | cons s rest ih =>
    by_cases hs : s.seq ∈ seen
    · simp only [dedupSegs, if_pos hs] at h
      exact ih h
    · simp only [dedupSegs, if_neg hs] at h
      rcases List.mem_cons.mp h with h' | h'
      · exact h' ▸ hs
      · intro hmem
        exact ih h' (List.mem_cons_of_mem _ hmem)

theorem dedupSegs_seq_strict {d : List Segment} (hs : d.Sorted segLE) :
    ∀ seen, (dedupSegs d seen).Pairwise fun a b => a.seq < b.seq := by
  induction d with
  | nil => intro seen; simp [dedupSegs]
  | cons s rest ih =>
    intro seen
    rcases List.sorted_cons.mp hs with ⟨hhead, htail⟩
    by_cases hmem : s.seq ∈ seen
    · simpa only [dedupSegs, if_pos hmem] using ih htail seen
    · simp only [dedupSegs, if_neg hmem]
      refine List.Pairwise.cons ?_ (ih htail (s.seq :: seen))
      intro w hw
      have hle := hhead w (mem_of_mem_dedupSegs hw)
      have hne : w.seq ≠ s.seq := by
        have := dedupSegs_not_seen hw
        intro hcontra
        exact this (hcontra ▸ List.mem_cons_self _ _)
      rcases hle with h' | ⟨h', _⟩
      · exact h'
      · exact absurd h'.symm hne

theorem dedupSegs_covers {d : List Segment} {s : Segment} (hmem : s ∈ d) :
    ∀ seen, s.seq ∉ seen → ∃ w ∈ dedupSegs d seen, w.seq = s.seq := by
  induction d with
  | nil => simp at hmem
  | cons e rest ih =>
    intro seen hseen
    by_cases he : e.seq ∈ seen
    · have hne : s ≠ e := fun hc => hseen (hc ▸ he)
      have hmem' : s ∈ rest := by
        rcases List.mem_cons.mp hmem with h' | h'
        · exact absurd h' hne
        · exact h'
      rcases ih hmem' seen hseen with ⟨w, hw, hweq⟩
      exact ⟨w, by simpa only [dedupSegs, if_pos he] using hw, hweq⟩
    · by_cases hes : s.seq = e.seq
      · refine ⟨e, ?_, hes.symm⟩
        simp [dedupSegs, if_neg he]
      · have hmem' : s ∈ rest := by
          rcases List.mem_cons.mp hmem with h' | h'
          · exact absurd (congrArg Segment.seq h') hes
          · exact h'
        have hseen' : s.seq ∉ e.seq :: seen := by
          intro hc
          rcases List.mem_cons.mp hc with h' | h'
          · exact hes h'
          · exact hseen h'
        rcases ih hmem' (e.seq :: seen) hseen' with ⟨w, hw, hweq⟩
        refine ⟨w, ?_, hweq⟩
        simp only [dedupSegs, if_neg he]
        exact List.mem_cons_of_mem _ hw

theorem dedupSegs_min_ts {d : List Segment} (hs : d.Sorted segLE) :
    ∀ seen, ∀ w ∈ dedupSegs d seen, ∀ s ∈ d, s.seq = w.seq → w.ts ≤ s.ts := by
  induction d with
  | nil => intro seen w hw; simp [dedupSegs] at hw
  | cons e rest ih =>
    intro seen w hw s hmem hseq
    rcases List.sorted_cons.mp hs with ⟨hhead, htail⟩
    by_cases he : e.seq ∈ seen
    · simp only [dedupSegs, if_pos he] at hw
      rcases List.mem_cons.mp hmem with h' | h'
      · exfalso
        have hws : w.seq ∈ seen := by rw [← hseq, h']; exact he
        exact dedupSegs_not_seen hw hws
      · exact ih htail seen w hw s h' hseq
    · simp only [dedupSegs, if_neg he] at hw
      rcases List.mem_cons.mp hw with hw' | hw'
      · subst hw'
        rcases List.mem_cons.mp hmem with h' | h'
        · exact h' ▸ le_refl _
        · rcases hhead s h' with h'' | ⟨_, h''⟩
          · exact absurd hseq (by omega)
          · exact h''
      · have hwne : w.seq ≠ e.seq := by
          have := dedupSegs_not_seen hw'
          intro hc
          exact this (hc ▸ List.mem_cons_self _ _)
        rcases List.mem_cons.mp hmem with h' | h'
        · exact absurd (by rw [← hseq, h']) hwne
        · exact ih htail (e.seq :: seen) w hw' s h' hseq

/-- Two sorted lists that are permutations of each other and whose
members are antisymmetric for the order on the first list are equal. -/
theorem sorted_perm_eq_of_antisymm :
    ∀ {l₁ l₂ : List Segment}, l₁.Perm l₂ → l₁.Sorted segLE →
      l₂.Sorted segLE →
      (∀ a ∈ l₁, ∀ b ∈ l₁, segLE a b → segLE b a → a = b) → l₁ = l₂ := by
  intro l₁
  induction l₁ with
  | nil => intro l₂ hp _ _ _; exact (hp.nil_eq).symm ▸ rfl
  | cons a t₁ ih =>
    intro l₂ hp hs₁ hs₂ hanti
    match l₂ with
    | [] => exact absurd hp.symm.nil_eq (by simp)
    | b :: t₂ =>
      have hab : a = b := by
        have hbmem : b ∈ a :: t₁ := hp.symm.subset (List.mem_cons_self _ _)
        have hamem : a ∈ b :: t₂ := hp.subset (List.mem_cons_self _ _)
        rcases List.mem_cons.mp hbmem with h' | h'
        · exact h'.symm
        · rcases List.mem_cons.mp hamem with h'' | h''
          · exact h''
          · have h1 : segLE a b := (List.sorted_cons.mp hs₁).1 b h'
            have h2 : segLE b a := (List.sorted_cons.mp hs₂).1 a h''
            exact hanti a (List.mem_cons_self _ _) b hbmem h1 h2
      subst hab
      have hp' : t₁.Perm t₂ := hp.cons_inv
      have heq : t₁ = t₂ := by
        refine ih hp' (List.sorted_cons.mp hs₁).2 (List.sorted_cons.mp hs₂).2 ?_
        intro x hx y hy hxy hyx
        exact hanti x (List.mem_cons_of_mem _ hx) y
          (List.mem_cons_of_mem _ hy) hxy hyx
      exact heq ▸ rfl

/-! ## Stream extraction lemmas -/

theorem streamSegs_ne_nil {segs : List Segment} (h : segs ≠ []) :
    streamSegs segs ≠ [] := by
  have hlen : (drainQueue segs).length = segs.length :=
    (drainQueue_perm segs).length_eq
  cases hd : drainQueue segs with
  | nil =>
    exfalso
    apply h
    apply List.length_eq_zero.mp
    rw [← hlen, hd]
    rfl
  | cons e rest =>
    simp [streamSegs, hd, dedupSegs]

theorem extractStep_inv (m : List (FlowId × List Segment)) (p : Packet)
    (hm : ∀ e ∈ m, e.2 ≠ [] ∧ ∀ s ∈ e.2, s.payload ≠ []) :
    ∀ e ∈ extractStep m p, e.2 ≠ [] ∧ ∀ s ∈ e.2, s.payload ≠ [] := by
  intro e he
  unfold extractStep at he
  by_cases htcp : p.isTcp
  · rw [if_pos htcp] at he
    by_cases hlen : p.payload.length > 0
    · rw [if_pos hlen] at he
      rcases mem_aset _ _ _ _ he with h' | h'
      · subst h'
        refine ⟨by simp, ?_⟩
        intro s hs
        rcases List.mem_append.mp hs with h'' | h''
        · cases hl : alookup m ⟨p.src, p.sport, p.dst, p.dport⟩ with
          | none => rw [hl] at h''; simp at h''
          | some l =>
            rw [hl] at h''
            exact (hm (⟨p.src, p.sport, p.dst, p.dport⟩, l)
              (alookup_mem _ _ _ hl)).2 s h''
        · have hseq : s = ⟨p.seq, p.tsMs, p.payload⟩ := by simpa using h''
          subst hseq
          intro hc
          rw [show Segment.payload ⟨p.seq, p.tsMs, p.payload⟩ = p.payload
            from rfl] at hc
          rw [hc] at hlen
          simp at hlen
      · exact hm e h'
    · rw [if_neg hlen] at he
      exact hm e he
  · rw [if_neg htcp] at he
    exact hm e he

theorem extractStreams_inv (pkts : List Packet) :
    ∀ e ∈ extractStreams pkts, e.2 ≠ [] ∧ ∀ s ∈ e.2, s.payload ≠ [] := by
  suffices h : ∀ (m : List (FlowId × List Segment)),
      (∀ e ∈ m, e.2 ≠ [] ∧ ∀ s ∈ e.2, s.payload ≠ []) →
      ∀ e ∈ pkts.foldl extractStep m, e.2 ≠ [] ∧ ∀ s ∈ e.2, s.payload ≠ []
    by exact h [] (by simp)
  induction pkts with
  | nil => intro m hm; exact hm
  | cons p t ih =>
    intro m hm
    rw [List.foldl_cons]
    exact ih _ (extractStep_inv m p hm)

/-! ## Staging lemmas for the message pass -/

theorem stagedView_foldl {α : Type} (f : CacheSt → α → CacheSt)
    (hf : ∀ c a, stagedView (f c a).store = stagedView c.store) :
    ∀ (l : List α) (c : CacheSt),
      stagedView ((l.foldl f c).store) = stagedView c.store := by
  intro l
  induction l with
  | nil => intro c; rfl
  | cons a t ih =>
    intro c
    rw [List.foldl_cons, ih, hf]

theorem stagedView_cacheInvEntry (ttl : Int) (node : Node) (ts : Int)
    (c : CacheSt) (e : Nat × Nat) :
    stagedView (cacheInvEntry ttl node ts c e).store = stagedView c.store := by
  by_cases h : e.1 = 2
  · simp only [cacheInvEntry, if_pos h]
    cases halo : alookup c.store.firstSeen e with
    | none => simp [stagedView]
    | some ms =>
      by_cases ht : Int.fdiv (ts - ms) 1000 > ttl <;> simp [stagedView, ht]
  · simp [cacheInvEntry, h, stagedView]

theorem stagedView_cacheMessage (ttl : Int) (node : Node) (ts : Int)
    (c : CacheSt) (m : Msg) :
    stagedView (cacheMessage ttl node ts c m).store = stagedView c.store := by
  cases m with
  | inv inventory cnt =>
    simp only [cacheMessage]
    exact stagedView_foldl _ (stagedView_cacheInvEntry ttl node ts)
      inventory c
  | pong nonce => rfl
  | other => rfl

theorem stagedView_cacheStreamMsgs (ttl : Int) (node : Node) (c : CacheSt)
    (msgs : List (Int × Msg)) :
    stagedView (cacheStreamMsgs ttl node c msgs).store = stagedView c.store := by
  unfold cacheStreamMsgs
  exact stagedView_foldl _
    (fun c tm => stagedView_cacheMessage ttl node tm.1 c tm.2) msgs c

theorem aset_aset {κ ν : Type} [DecidableEq κ]
    (m : List (κ × ν)) (k : κ) (v w : ν) :
    aset (aset m k v) k w = aset m k w := by
  induction m with
  | nil => simp [aset]
  | cons p rest ih =>
    by_cases h : k = p.1
    · simp [aset, h]
    · simp [aset, h, ih]

theorem applyRttCmds (st : Store) (n : Node) (v stop t : Int) :
    applyCmds st [Cmd.lpushRtt n v, Cmd.ltrimRtt n stop, Cmd.expireRtt n t] =
      { st with
          rtts := aset st.rtts n
            (redisTrim stop (v :: (alookup st.rtts n).getD [])),
          rttExpiry := aset st.rttExpiry n t } := by
  simp only [applyCmds, List.foldl_cons, List.foldl_nil, applyCmd]
  rw [alookup_aset_self]
  simp only [aset_aset]

/-! ## Claims -/

/-- C1 (counterexample).  The claim asserts byte-identical output for any
two insertion orders of the same segment set.  Two segments with equal
sequence number and equal timestamp but different payloads are a
permutation of one another in either order, yet the delivered chunk
sequence differs: the tie is broken by queue-internal (object identity)
order, which follows insertion, not by any content of the segments. -/
theorem C1_order_dependent_cex :
    ([⟨100, 5, [65]⟩, ⟨100, 5, [66]⟩] : List Segment).Perm
      [⟨100, 5, [66]⟩, ⟨100, 5, [65]⟩] ∧
    streamChunks [⟨100, 5, [65]⟩, ⟨100, 5, [66]⟩] = [[65]] ∧
    streamChunks [⟨100, 5, [66]⟩, ⟨100, 5, [65]⟩] = [[66]] ∧
    streamChunks [⟨100, 5, [65]⟩, ⟨100, 5, [66]⟩] ≠
      streamChunks [⟨100, 5, [66]⟩, ⟨100, 5, [65]⟩] :=
  ⟨List.Perm.swap _ _ _, by decide, by decide, by decide⟩

/-- C1 (amended).  For every set of captured segments of one FlowId in
which no two segments share both sequence number and timestamp while
differing in payload, the delivered chunk sequence (with its timestamp
side channel) is identical for any two insertion orders. -/
theorem C1_order_invariance (l l' : List Segment) (hp : l.Perm l')
    (hc : ∀ a ∈ l, ∀ b ∈ l, a.seq = b.seq → a.ts = b.ts →
      a.payload = b.payload) :
    streamOut l = streamOut l' ∧ streamChunks l = streamChunks l' := by
  have hperm : (drainQueue l).Perm (drainQueue l') :=
    (drainQueue_perm l).trans (hp.trans (drainQueue_perm l').symm)
  have hanti : ∀ a ∈ drainQueue l, ∀ b ∈ drainQueue l,
      segLE a b → segLE b a → a = b := by
    intro a ha b hb hab hba
    have ha' : a ∈ l := (drainQueue_perm l).subset ha
    have hb' : b ∈ l := (drainQueue_perm l).subset hb
    have hseq : a.seq = b.seq := by
      rcases hab with h | ⟨h, _⟩ <;> rcases hba with h' | ⟨h', _⟩ <;> omega
    have hts : a.ts = b.ts := by
      rcases hab with h | ⟨_, h2⟩ <;> rcases hba with h' | ⟨_, h2'⟩ <;> omega
    have hpay := hc a ha' b hb' hseq hts
    cases a
    cases b
    simp_all
  have heq : drainQueue l = drainQueue l' :=
    sorted_perm_eq_of_antisymm hperm (drainQueue_sorted l)
      (drainQueue_sorted l') hanti
  constructor <;> simp [streamOut, streamChunks, streamSegs, heq]

/-- Witness for `C1_order_invariance` at the two insertion orders of a
concrete two-segment flow. -/
theorem C1_order_invariance_witness :
    (c1A.Perm c1B ∧
      ∀ a ∈ c1A, ∀ b ∈ c1A, a.seq = b.seq → a.ts = b.ts →
        a.payload = b.payload) ∧
    streamOut c1A = streamOut c1B :=
  ⟨⟨List.Perm.swap _ _ _, by decide⟩,
    (C1_order_invariance c1A c1B (List.Perm.swap _ _ _) (by decide)).1⟩

/-- C2.  The chunk sequence delivered for one FlowId is the payloads of
delivered segments in strictly ascending sequence-number order; every
delivered segment is one of the inserted segments; and every inserted
segment's sequence number is represented by exactly one delivered chunk
(strict ascent forbids a second one), so later segments carrying an
already-produced sequence number are dropped. -/
theorem C2_seq_order (l : List Segment) (s : Segment) (hs : s ∈ l) :
    streamChunks l = (streamSegs l).map Segment.payload ∧
    ((streamSegs l).Pairwise fun a b => a.seq < b.seq) ∧
    (∀ w ∈ streamSegs l, w ∈ l) ∧
    ∃ w ∈ streamSegs l, w.seq = s.seq := by
  refine ⟨rfl, dedupSegs_seq_strict (drainQueue_sorted l) [], ?_, ?_⟩
  · intro w hw
    exact (drainQueue_perm l).subset (mem_of_mem_dedupSegs hw)
  · have hs' : s ∈ drainQueue l := (drainQueue_perm l).mem_iff.mpr hs
    exact dedupSegs_covers hs' [] (by simp)

/-- Witness for `C2_seq_order` at the spec's example: segments 100 and
104 inserted out of order reassemble to the bytes of `AB` then `CD`. -/
theorem C2_seq_order_witness :
    ((⟨100, 5, [65, 66]⟩ : Segment) ∈ c2Demo ∧
      streamChunks c2Demo = [[65, 66], [67, 68]]) ∧
    (streamChunks c2Demo = (streamSegs c2Demo).map Segment.payload ∧
      ((streamSegs c2Demo).Pairwise fun a b => a.seq < b.seq) ∧
      (∀ w ∈ streamSegs c2Demo, w ∈ c2Demo) ∧
      ∃ w ∈ streamSegs c2Demo, w.seq = 100) :=
  ⟨⟨by decide, by decide⟩, C2_seq_order c2Demo ⟨100, 5, [65, 66]⟩ (by decide)⟩

/-- C9 (counterexample).  Two segments share sequence number 100; the
first-inserted one carries timestamp 1000 and payload `[65]`, the
second-inserted one timestamp 500 and payload `[66]`.  The delivered
payload is that of the second-inserted segment (smaller timestamp), not
the first-inserted one: the tie is broken by timestamp, not by
arrival/insertion order. -/
theorem C9_tie_cex :
    streamChunks [⟨100, 1000, [65]⟩, ⟨100, 500, [66]⟩] = [[66]] ∧
    streamChunks [⟨100, 1000, [65]⟩, ⟨100, 500, [66]⟩] ≠ [[65]] := by
  decide

/-- C9 (amended).  Among segments sharing a sequence number, the one
whose payload is delivered has minimal capture timestamp: ties on
sequence number are broken by ascending timestamp (insertion order can
matter only between segments equal in both sequence number and
timestamp). -/
theorem C9_tie_min_ts (l : List Segment) (w : Segment)
    (hw : w ∈ streamSegs l) (s : Segment) (hs : s ∈ l)
    (hseq : s.seq = w.seq) : w.ts ≤ s.ts := by
  have hs' : s ∈ drainQueue l := (drainQueue_perm l).mem_iff.mpr hs
  exact dedupSegs_min_ts (drainQueue_sorted l) [] w hw s hs' hseq

/-- Witness for `C9_tie_min_ts` on the counterexample flow: the winning
segment for sequence 100 carries the minimal timestamp 500. -/
theorem C9_tie_min_ts_witness :
    ((⟨100, 500, [66]⟩ : Segment) ∈
        streamSegs [⟨100, 1000, [65]⟩, ⟨100, 500, [66]⟩] ∧
      (⟨100, 1000, [65]⟩ : Segment) ∈
        ([⟨100, 1000, [65]⟩, ⟨100, 500, [66]⟩] : List Segment)) ∧
    (500 : Int) ≤ 1000 :=
  ⟨⟨by decide, by decide⟩,
    C9_tie_min_ts [⟨100, 1000, [65]⟩, ⟨100, 500, [66]⟩] ⟨100, 500, [66]⟩
      (by decide) ⟨100, 1000, [65]⟩ (by decide) (by decide)⟩

/-- C3 (counterexample).  With TTL 10800 s and first-seen(77) at
1000000 ms, an inv entry for block 77 arriving 1 ms past the TTL
(timestamp 11800001 = 1000000 + 10800*1000 + 1) still stages a score
entry: the skip test is the floor division
`(timestamp - first_seen) / 1000 > ttl`, and `10800001 / 1000 = 10800`
is not greater than 10800. -/
theorem C3_ttl_boundary_cex :
    (11800001 : Int) - 1000000 = 10800 * 1000 + 1 ∧
    alookup c3Cache.store.firstSeen (2, 77) = some 1000000 ∧
    (cacheInvEntry 10800 (1, 8333) 11800001 c3Cache (2, 77)).pipe =
      [Cmd.zadd (2, 77) 11800001 (1, 8333), Cmd.expireInv (2, 77) 10800] := by
  decide

/-- C3 (amended).  A block-type inv entry whose hash already has a
first-seen timestamp is skipped entirely — no command staged, no store or
counter change — exactly when the whole elapsed seconds
`fdiv (timestamp - first_seen) 1000` exceed the TTL (i.e. the elapsed
time is at least `(ttl + 1) * 1000` ms); an entry only 1 ms past the TTL
is still scored. -/
theorem C3_ttl_skip (ttl : Int) (node : Node) (ts : Int) (c : CacheSt)
    (h : Nat) (ms : Int)
    (hfs : alookup c.store.firstSeen (2, h) = some ms)
    (hold : Int.fdiv (ts - ms) 1000 > ttl) :
    cacheInvEntry ttl node ts c (2, h) = c := by
  simp [cacheInvEntry, hfs, hold]

/-- Witness for `C3_ttl_skip`: an entry a full second past the TTL
(elapsed 10801000 ms, `fdiv = 10801 > 10800`) changes nothing. -/
theorem C3_ttl_skip_witness :
    (alookup c3Cache.store.firstSeen (2, 77) = some 1000000 ∧
      Int.fdiv ((11801000 : Int) - 1000000) 1000 > 10800) ∧
    cacheInvEntry 10800 (1, 8333) 11801000 c3Cache (2, 77) = c3Cache :=
  ⟨⟨by decide, by decide⟩,
    C3_ttl_skip 10800 (1, 8333) 11801000 c3Cache 77 1000000
      (by decide) (by decide)⟩

/-- C5.  Once a block hash has a first-seen timestamp, a later inv for
the same hash within the TTL window leaves the whole store — and in
particular the first-seen scalar — unchanged, and stages exactly that
node's score entry plus the key's expiry refresh. -/
theorem C5_first_seen_immutable (ttl : Int) (node : Node) (ts : Int)
    (c : CacheSt) (h : Nat) (ms : Int)
    (hfs : alookup c.store.firstSeen (2, h) = some ms)
    (hin : Int.fdiv (ts - ms) 1000 ≤ ttl) :
    (cacheInvEntry ttl node ts c (2, h)).store = c.store ∧
    (cacheInvEntry ttl node ts c (2, h)).pipe =
      c.pipe ++ [Cmd.zadd (2, h) ts node, Cmd.expireInv (2, h) ttl] := by
  have hnot : ¬ Int.fdiv (ts - ms) 1000 > ttl := not_lt.mpr hin
  constructor <;> simp [cacheInvEntry, hfs, hnot]

/-- Witness for `C5_first_seen_immutable` at the spec's example: a second
inv for the same hash at t = 5000000 within the window from first-seen
1000000 adds a score entry and leaves first-seen unchanged. -/
theorem C5_first_seen_immutable_witness :
    (alookup c5Cache.store.firstSeen (2, 88) = some 1000000 ∧
      Int.fdiv ((5000000 : Int) - 1000000) 1000 ≤ 10800) ∧
    ((cacheInvEntry 10800 (2, 8333) 5000000 c5Cache (2, 88)).store =
        c5Cache.store ∧
      (cacheInvEntry 10800 (2, 8333) 5000000 c5Cache (2, 88)).pipe =
        c5Cache.pipe ++
          [Cmd.zadd (2, 88) 5000000 (2, 8333), Cmd.expireInv (2, 88) 10800]) :=
  ⟨⟨by decide, by decide⟩,
    C5_first_seen_immutable 10800 (2, 8333) 5000000 c5Cache 88 1000000
      (by decide) (by decide)⟩

/-- C7.  A pong whose pairing key has no prior entry changes nothing in
the store when its staged append-if-exists executes (no list created, no
timestamp stored), and the RTT pass stages no command for that key; the
pong itself stages only the `rpushx` and touches no store state. -/
theorem C7_pong_requires_ping (ttl rttCount : Int) (node : Node)
    (nonce : Nat) (ts : Int) (c : CacheSt)
    (hnone : alookup c.store.pings (node, nonce) = none) :
    (cacheMessage ttl node ts c (.pong nonce)).store = c.store ∧
    (cacheMessage ttl node ts c (.pong nonce)).pipe =
      c.pipe ++ [Cmd.rpushx (node, nonce) ts] ∧
    applyCmd c.store (Cmd.rpushx (node, nonce) ts) = c.store ∧
    rttPerKey c.store rttCount ttl (node, nonce) = [] := by
  refine ⟨rfl, rfl, ?_, ?_⟩
  · simp [applyCmd, hnone]
  · simp [rttPerKey, hnone]

/-- Witness for `C7_pong_requires_ping`: a pong with nonce 7 from peer
`(5, 8333)` against an empty store. -/
theorem C7_pong_requires_ping_witness :
    (alookup demoCache0.store.pings ((5, 8333), 7) = none) ∧
    ((cacheMessage 10800 (5, 8333) 3000 demoCache0 (.pong 7)).store =
        demoCache0.store ∧
      (cacheMessage 10800 (5, 8333) 3000 demoCache0 (.pong 7)).pipe =
        demoCache0.pipe ++ [Cmd.rpushx ((5, 8333), 7) 3000] ∧
      applyCmd demoCache0.store (Cmd.rpushx ((5, 8333), 7) 3000) =
        demoCache0.store ∧
      rttPerKey demoCache0.store 8 10800 ((5, 8333), 7) = []) :=
  ⟨by decide,
    C7_pong_requires_ping 10800 8 (5, 8333) 7 3000 demoCache0 (by decide)⟩

/-- C4 (counterexample).  The claim lists first-seen scalars among the
mutations that become visible only at the single end-of-pass flush.  But
`cache_message` writes the first-seen scalar through `REDIS_CONN.set`
immediately: after the message pass over one stream carrying one block
inv — and before any `execute()` — the store already holds the new
first-seen value. -/
theorem C4_first_seen_immediate_cex :
    demoCache0.store.firstSeen = [] ∧
    (messagePass demoDecoder 10800 demoCache0 c4Streams).store.firstSeen =
      [((2, 5), 1000)] := by
  decide

/-- C4 (amended).  During one file's message pass every store mutation
other than the block first-seen scalars — lastblockhash, score entries,
expiries, pong appends, RTT lists — is only staged: the non-first-seen
store components are untouched until the single batch flush that follows
the pass.  First-seen scalars, by contrast, are written immediately per
message. -/
theorem C4_staged_until_flush (d : Decoder) (ttl : Int) (c : CacheSt)
    (streams : List (FlowId × List Segment)) :
    stagedView (messagePass d ttl c streams).store = stagedView c.store := by
  unfold messagePass
  exact stagedView_foldl _
    (fun c s => stagedView_cacheStreamMsgs ttl _ c _) streams c

/-- C6.  On a malformed frame the framer replaces the whole buffer by the
next chunk (or ends the stream when none remains); consequently a buffer
made of a malformed prefix followed by the bytes of a valid frame is
discarded wholesale and the trailing valid frame is never decoded from
it, even though the same bytes decode successfully on their own. -/
theorem C6_malformed_discards_buffer :
    (∀ (d : Decoder) (buf : List Nat) (curTs ts : Int) (c : List Nat)
        (cs : List (Int × List Nat)), d.decode buf = .malformed →
        frameLoop d buf curTs ((ts, c) :: cs) = frameLoop d c ts cs) ∧
    (∀ (d : Decoder) (buf : List Nat) (curTs : Int),
        d.decode buf = .malformed → frameLoop d buf curTs [] = []) ∧
    demoDecoder.decode [9, 1, 5] = .malformed ∧
    demoDecoder.decode [1, 5] = .ok (msgOfByte 5) [] ∧
    frameLoop demoDecoder [9, 1, 5] 0 [] = [] := by
  refine ⟨?_, ?_, by decide, by decide, by decide⟩
  · intro d buf curTs ts c cs h
    exact frameLoop_malformed_cons d curTs ts c cs h
  · intro d buf curTs h
    exact frameLoop_malformed_nil d curTs h

/-- Witness for `C6_malformed_discards_buffer`: on a malformed buffer
with one chunk pending, decoding resumes from that chunk alone and
yields exactly its frame. -/
theorem C6_malformed_discards_buffer_witness :
    demoDecoder.decode [9, 1, 5] = .malformed ∧
    frameLoop demoDecoder [9, 1, 5] 0 [(7, [1, 6])] =
      frameLoop demoDecoder [1, 6] 7 [] ∧
    frameLoop demoDecoder [9, 1, 5] 0 [(7, [1, 6])] = [(7, msgOfByte 6)] := by
  refine ⟨C6_malformed_discards_buffer.2.2.1, ?_, by decide⟩
  exact C6_malformed_discards_buffer.1 demoDecoder [9, 1, 5] 0 7 [1, 6] []
    (by decide)

/-- C8 (counterexample).  The claim promises the RTT list is trimmed to
at most `rtt_count` entries.  With `rtt_count = 0` the staged trim is
`LTRIM 0 -1`, which keeps the whole list: after the RTT pass over a key
holding `[2000, 2500]`, the peer's list holds three entries, not zero. -/
theorem C8_trim_zero_cex :
    alookup c8Store.pings ((6, 8333), 9) = some [2000, 2500] ∧
    (alookup (cacheRtt c8Store [((6, 8333), 9)] 0 10800).rtts
        (6, 8333)).getD [] = [500, 1, 2] ∧
    ((alookup (cacheRtt c8Store [((6, 8333), 9)] 0 10800).rtts
        (6, 8333)).getD []).length = 3 := by
  decide

/-- C8 (amended).  For a remembered pairing key holding at least two
timestamps, the RTT pass pushes `second - first` (stored as-is, also
when zero or negative) onto the front of the peer's RTT list, trims the
result to its first `rtt_count` entries — a bound provided
`rtt_count ≥ 1`; `rtt_count = 0` keeps the whole list — and refreshes
the list's expiry to the TTL; keys holding fewer than two timestamps
stage nothing. -/
theorem C8_rtt_pass (st : Store) (k : PingKey) (a b : Int)
    (rest : List Int) (rttCount ttl : Int) (st' : Store)
    (hst' : st' = applyCmds st (rttPerKey st rttCount ttl k))
    (hl : alookup st.pings k = some (a :: b :: rest))
    (hc : 1 ≤ rttCount) :
    alookup st'.rtts k.1 =
      some (((b - a) :: (alookup st.rtts k.1).getD []).take
        rttCount.toNat) ∧
    ((alookup st'.rtts k.1).getD []).length ≤ rttCount.toNat ∧
    alookup st'.rttExpiry k.1 = some ttl ∧
    (∀ k' : PingKey, alookup st.pings k' = none →
      rttPerKey st rttCount ttl k' = []) ∧
    (∀ (k' : PingKey) (x : Int), alookup st.pings k' = some [x] →
      rttPerKey st rttCount ttl k' = []) := by
  have hcmds : rttPerKey st rttCount ttl k =
      [Cmd.lpushRtt k.1 (b - a), Cmd.ltrimRtt k.1 (rttCount - 1),
        Cmd.expireRtt k.1 ttl] := by
    simp [rttPerKey, hl]
  have htrim : redisTrim (rttCount - 1)
      ((b - a) :: (alookup st.rtts k.1).getD []) =
      ((b - a) :: (alookup st.rtts k.1).getD []).take rttCount.toNat := by
    have hpos : (0 : Int) ≤ rttCount - 1 := by omega
    rw [redisTrim, if_pos hpos]
    congr 1
    omega
  rw [hcmds, applyRttCmds, htrim] at hst'
  subst hst'
  refine ⟨alookup_aset_self _ _ _, ?_, alookup_aset_self _ _ _, ?_, ?_⟩
  · rw [alookup_aset_self]
    simp only [Option.getD_some, List.length_take]
    exact min_le_left _ _
  · intro k' hk'
    simp [rttPerKey, hk']
  · intro k' x hk'
    simp [rttPerKey, hk']

/-- Witness for `C8_rtt_pass`: a key holding `[2000, 2500]` with
`rtt_count = 2` yields the RTT 500 in front, the list trimmed to two
entries, and a refreshed expiry. -/
theorem C8_rtt_pass_witness :
    (alookup c8Store.pings ((6, 8333), 9) = some [2000, 2500] ∧
      (1 : Int) ≤ 2) ∧
    (alookup (applyCmds c8Store
        (rttPerKey c8Store 2 10800 ((6, 8333), 9))).rtts (6, 8333) =
      some [500, 1] ∧
    alookup (applyCmds c8Store
        (rttPerKey c8Store 2 10800 ((6, 8333), 9))).rttExpiry (6, 8333) =
      some 10800) := by
  refine ⟨⟨by decide, by decide⟩, ?_⟩
  have h := C8_rtt_pass c8Store ((6, 8333), 9) 2000 2500 [] 2 10800 _ rfl
    (by decide) (by decide)
  refine ⟨?_, h.2.2.1⟩
  rw [h.1]
  decide

/-- C10.  Every flow entry built by `extract_streams` holds at least one
segment, every queued segment has a non-empty payload, and therefore the
framer's unconditional first `data.next()` always yields a chunk: the
framing of such a stream never dies on the initial pull. -/
theorem C10_first_pull_safe (d : Decoder) (pkts : List Packet)
    (fid : FlowId) (segs : List Segment)
    (h : (fid, segs) ∈ extractStreams pkts) :
    segs ≠ [] ∧ (∀ s ∈ segs, s.payload ≠ []) ∧
    (streamMessages? d segs).isSome := by
  have hinv := extractStreams_inv pkts (fid, segs) h
  refine ⟨hinv.1, hinv.2, ?_⟩
  have hne : streamOut segs ≠ [] := by
    have hsegs := streamSegs_ne_nil hinv.1
    simp only [streamOut]
    intro hc
    exact hsegs (List.map_eq_nil_iff.mp hc)
  rcases ho : streamOut segs with _ | ⟨⟨ts, c⟩, rest⟩
  · exact absurd ho hne
  · simp [streamMessages?, ho]

/-- Witness for `C10_first_pull_safe` on a one-packet capture. -/
theorem C10_first_pull_safe_witness :
    ((⟨10, 8333, 20, 8333⟩, [⟨0, 1000, [1, 5]⟩]) ∈ extractStreams c10Pkts) ∧
    (([⟨0, 1000, [1, 5]⟩] : List Segment) ≠ [] ∧
      (∀ s ∈ ([⟨0, 1000, [1, 5]⟩] : List Segment), s.payload ≠ []) ∧
      (streamMessages? demoDecoder [⟨0, 1000, [1, 5]⟩]).isSome) :=
  ⟨by decide,
    C10_first_pull_safe demoDecoder c10Pkts ⟨10, 8333, 20, 8333⟩
      [⟨0, 1000, [1, 5]⟩] (by decide)⟩
